import Mathlib

/-!
# Verification of the toasterhea toast lifecycle coordinator

A shallow embedding of the core of the `toasterhea` library: the single-shot
`Deferral` (from `defer`), the keyed registry created by `toaster()` (`set`,
`dispose`, `hasActive`, the background watcher that removes an entry once both
dispose deferrals have settled), and the toastable adapter produced by
`toastify`/`create` (`pop` with its supersede-and-retry loop, and `discard`).

JavaScript promise settlement is modelled by an explicit `Option Settlement`
status on each deferral; the cooperative event loop is modelled by a small-step
relation on a whole-system state, where suspended `pop` invocations are resumed
nondeterministically once the deferral they await has settled.
-/

namespace Toasterhea

/-- The value a pop deferral resolves with (toast resolutions are opaque here). -/
abbrev Val := Nat

/-- Rejection reasons.  `update` is the module-internal Update signal
(`UpdateSignal` / `RejectionReason.Update`), `host` is the host-cancellation
(`new ToastCancelled()` / `RejectionReason.Host`), `unmount` the unmount
sentinel, and `caller n` an arbitrary caller-supplied rejection value. -/
inductive Reason where
  | update
  | host
  | unmount
  | caller (n : Nat)
deriving DecidableEq, Repr

/-- The outcome of a settled promise: fulfilled with a value or rejected
with a reason. -/
inductive Settlement (α : Type) where
  | resolvedWith (v : α)
  | rejectedWith (r : Reason)
deriving DecidableEq, Repr

/-- Type guard `isCancelledByHost` from the source:
`e instanceof ToastCancelled`. -/
def isCancelledByHost : Reason → Bool
  | .host => true
  | _ => false

/-- A deferral as produced by `defer<T>()`: its promise's settlement status
(`none` while pending) is the whole observable state; `resolve`/`reject` are
guarded by the `settled` flag in the source. -/
structure Deferral (α : Type) where
  status : Option (Settlement α)
deriving DecidableEq, Repr

/-- Source `defer()` — a fresh, unsettled deferral (`settled = false`). -/
def defer {α : Type} : Deferral α := ⟨none⟩

/-- The `settled` getter of a deferral. -/
def Deferral.settled {α : Type} (d : Deferral α) : Bool := d.status.isSome

/-- Source `deferral.resolve(v)`: guarded by `if (!settled)` in the source, so a
no-op once settled. -/
def Deferral.resolve {α : Type} (d : Deferral α) (v : α) : Deferral α :=
  if d.settled then d else ⟨some (.resolvedWith v)⟩

/-- Source `deferral.reject(r)`: guarded by `if (!settled)` in the source, so a
no-op once settled. -/
def Deferral.reject {α : Type} (d : Deferral α) (r : Reason) : Deferral α :=
  if d.settled then d else ⟨some (.rejectedWith r)⟩

/-- Settle a deferral with a given outcome (resolve or reject), with the same
`settled` guard. -/
def Deferral.settle {α : Type} (d : Deferral α) (o : Settlement α) : Deferral α :=
  if d.settled then d else ⟨some o⟩

theorem Deferral.resolve_eq_settle {α : Type} (d : Deferral α) (v : α) :
    d.resolve v = d.settle (.resolvedWith v) := rfl

theorem Deferral.reject_eq_settle {α : Type} (d : Deferral α) (r : Reason) :
    d.settle (.rejectedWith r) = d.reject r := rfl

/-! ## Association lists

`Map<Key, V>` objects are modelled by association lists with the JS `Map`
operations: lookup, insert-or-replace-in-place (`Map.set` keeps iteration
order for existing keys and appends new keys), pointwise modification of one
entry (mutation of the stored object), and deletion. -/

section Assoc

variable {κ β : Type} [DecidableEq κ]

/-- JS `Map.get`: first (and, in reachable states, only) binding of a key. -/
def alook : List (κ × β) → κ → Option β
  | [], _ => none
  | (k', b) :: t, k => if k' = k then some b else alook t k

/-- JS `Map.set`: replace in place when present, append when absent. -/
def aset : List (κ × β) → κ → β → List (κ × β)
  | [], k, b => [(k, b)]
  | (k', b') :: t, k, b => if k' = k then (k, b) :: t else (k', b') :: aset t k b

/-- Mutation of the object stored under one key (all bindings of that key). -/
def amodify : List (κ × β) → κ → (β → β) → List (κ × β)
  | [], _, _ => []
  | (k', b) :: t, k, f =>
      if k' = k then (k', f b) :: amodify t k f else (k', b) :: amodify t k f

/-- JS `Map.delete`. -/
def aerase (l : List (κ × β)) (k : κ) : List (κ × β) :=
  l.filter fun p => p.1 ≠ k

@[simp] theorem alook_nil (k : κ) : alook ([] : List (κ × β)) k = none := rfl

theorem alook_aset_self (l : List (κ × β)) (k : κ) (b : β) :
    alook (aset l k b) k = some b := by
  induction l with
  | nil => simp [aset, alook]
  | cons p t ih =>
    obtain ⟨k', b'⟩ := p
    by_cases h : k' = k
    · simp [aset, h, alook]
    · simp [aset, h, alook, ih]

theorem alook_aset_ne (l : List (κ × β)) (k k' : κ) (b : β) (h : k ≠ k') :
    alook (aset l k b) k' = alook l k' := by
  induction l with
  | nil => simp [aset, alook, h]
  | cons p t ih =>
    obtain ⟨k₀, b₀⟩ := p
    by_cases h0 : k₀ = k
    · subst h0; simp [aset, alook, h]
    · simp only [aset, if_neg h0]
      by_cases h1 : k₀ = k'
      · simp [alook, h1]
      · simp [alook, h1, ih]

theorem alook_amodify_ne (l : List (κ × β)) (k k' : κ) (f : β → β) (h : k ≠ k') :
    alook (amodify l k f) k' = alook l k' := by
  induction l with
  | nil => rfl
  | cons p t ih =>
    obtain ⟨k₀, b₀⟩ := p
    by_cases h0 : k₀ = k
    · subst h0
      simp [amodify, alook, h, ih]
    · by_cases h1 : k₀ = k'
      · simp [amodify, alook, h0, h1, Ne.symm h]
      · simp [amodify, alook, h0, h1, ih]

theorem alook_amodify_self (l : List (κ × β)) (k : κ) (f : β → β) :
    alook (amodify l k f) k = (alook l k).map f := by
  induction l with
  | nil => rfl
  | cons p t ih =>
    obtain ⟨k₀, b₀⟩ := p
    by_cases h0 : k₀ = k
    · subst h0; simp [amodify, alook]
    · simp [amodify, alook, h0, ih]

theorem alook_eq_some_of_mem_amodify (l : List (κ × β)) (k : κ) (f : β → β)
    (b : β) (h : alook l k = some b) : alook (amodify l k f) k = some (f b) := by
  rw [alook_amodify_self, h]; rfl

theorem alook_isSome_aset (l : List (κ × β)) (k k' : κ) (b : β)
    (h : (alook l k').isSome) : (alook (aset l k b) k').isSome := by
  by_cases hk : k = k'
  · subst hk; simp [alook_aset_self]
  · rwa [alook_aset_ne l k k' b hk]

theorem amodify_eq_self (l : List (κ × β)) (k : κ) (f : β → β)
    (h : ∀ b, (k, b) ∈ l → f b = b) : amodify l k f = l := by
  induction l with
  | nil => rfl
  | cons p t ih =>
    obtain ⟨k₀, b₀⟩ := p
    have ht := ih fun b hb' => h b (List.mem_cons_of_mem _ hb')
    by_cases h0 : k₀ = k
    · subst h0
      have hb := h b₀ (List.mem_cons_self _ _)
      simp [amodify, hb, ht]
    · simp [amodify, h0, ht]

theorem amodify_keys (l : List (κ × β)) (k : κ) (f : β → β) :
    (amodify l k f).map Prod.fst = l.map Prod.fst := by
  induction l with
  | nil => rfl
  | cons p t ih =>
    obtain ⟨k₀, b₀⟩ := p
    by_cases h0 : k₀ = k
    · simp [amodify, h0, ih]
    · simp [amodify, h0, ih]

theorem mem_amodify_not_fixed (l : List (κ × β)) (k : κ) (f : β → β)
    (P : β → Prop) (hf : ∀ b, ¬ P (f b)) (d : κ) (b : β)
    (h : (d, b) ∈ amodify l k f) (hP : P b) : d ≠ k ∧ (d, b) ∈ l := by
  induction l with
  | nil => simp [amodify] at h
  | cons p t ih =>
    obtain ⟨k₀, b₀⟩ := p
    by_cases h0 : k₀ = k
    · rw [amodify, if_pos h0] at h
      rcases List.mem_cons.mp h with h | h
      · exfalso
        injection h with hd hb
        exact hf b₀ (hb ▸ hP)
      · obtain ⟨hd, hmem⟩ := ih h
        exact ⟨hd, List.mem_cons_of_mem _ hmem⟩
    · rw [amodify, if_neg h0] at h
      rcases List.mem_cons.mp h with h | h
      · injection h with hd hb
        subst hd
        exact ⟨h0, hb ▸ List.mem_cons_self _ _⟩
      · obtain ⟨hd, hmem⟩ := ih h
        exact ⟨hd, List.mem_cons_of_mem _ hmem⟩

omit [DecidableEq κ] in
theorem mem_keys_of_mem (l : List (κ × β)) (p : κ × β) (h : p ∈ l) :
    p.1 ∈ l.map Prod.fst :=
  List.mem_map_of_mem Prod.fst h

theorem mem_keys_amodify (l : List (κ × β)) (k : κ) (f : β → β) (p : κ × β)
    (h : p ∈ amodify l k f) : p.1 ∈ l.map Prod.fst :=
  amodify_keys l k f ▸ mem_keys_of_mem _ p h

theorem mem_aset (l : List (κ × β)) (k : κ) (b : β) (p : κ × β)
    (h : p ∈ aset l k b) : p = (k, b) ∨ p ∈ l := by
  induction l with
  | nil => simpa [aset] using h
  | cons q t ih =>
    obtain ⟨k₀, b₀⟩ := q
    by_cases h0 : k₀ = k
    · simp only [aset, if_pos h0, List.mem_cons] at h
      rcases h with h | h
      · exact Or.inl h
      · exact Or.inr (List.mem_cons_of_mem _ h)
    · simp only [aset, if_neg h0, List.mem_cons] at h
      rcases h with h | h
      · exact Or.inr (h ▸ List.mem_cons_self _ _)
      · rcases ih h with h' | h'
        · exact Or.inl h'
        · exact Or.inr (List.mem_cons_of_mem _ h')

theorem aset_eq_append (l : List (κ × β)) (k : κ) (b : β)
    (h : alook l k = none) : aset l k b = l ++ [(k, b)] := by
  induction l with
  | nil => rfl
  | cons q t ih =>
    obtain ⟨k₀, b₀⟩ := q
    by_cases h0 : k₀ = k
    · simp [alook, h0] at h
    · simp only [alook, if_neg h0] at h
      simp [aset, h0, ih h]

theorem alook_eq_none_of_not_mem_keys (l : List (κ × β)) (k : κ)
    (h : k ∉ l.map Prod.fst) : alook l k = none := by
  induction l with
  | nil => rfl
  | cons q t ih =>
    obtain ⟨k₀, b₀⟩ := q
    simp only [List.map_cons, List.mem_cons] at h
    push_neg at h
    simp [alook, Ne.symm h.1, ih h.2]

theorem mem_aerase (l : List (κ × β)) (k : κ) (p : κ × β)
    (h : p ∈ aerase l k) : p ∈ l :=
  List.mem_of_mem_filter h

theorem alook_aerase_self (l : List (κ × β)) (k : κ) :
    alook (aerase l k) k = none := by
  induction l with
  | nil => rfl
  | cons q t ih =>
    obtain ⟨k₀, b₀⟩ := q
    by_cases h0 : k₀ = k
    · simpa [aerase, h0] using ih
    · simpa [aerase, alook, h0] using ih

theorem alook_aerase_ne (l : List (κ × β)) (k k' : κ) (h : k' ≠ k) :
    alook (aerase l k) k' = alook l k' := by
  induction l with
  | nil => rfl
  | cons q t ih =>
    obtain ⟨k₀, b₀⟩ := q
    by_cases h0 : k₀ = k
    · subst h0
      simpa [aerase, alook, Ne.symm h] using ih
    · by_cases h1 : k₀ = k'
      · subst h1
        simp [aerase, alook, List.filter_cons, h0]
      · simpa [aerase, alook, List.filter_cons, h0, h1] using ih

theorem alook_isSome_amodify (l : List (κ × β)) (k k' : κ) (f : β → β)
    (h : (alook l k').isSome) : (alook (amodify l k f) k').isSome := by
  by_cases hk : k = k'
  · subst hk
    rcases Option.isSome_iff_exists.mp h with ⟨b, hb⟩
    rw [alook_amodify_self, hb]
    rfl
  · rwa [alook_amodify_ne l k k' f hk]

theorem length_le_one_of_nodup_all_eq {α : Type} (l : List α) (c : α)
    (hnd : l.Nodup) (h : ∀ a ∈ l, a = c) : l.length ≤ 1 := by
  match l with
  | [] => simp
  | [a] => simp
  | a :: b :: t =>
    exfalso
    have ha := h a (List.mem_cons_self _ _)
    have hb := h b (List.mem_cons_of_mem _ (List.mem_cons_self _ _))
    have : a ≠ b := by
      intro hab
      exact (List.nodup_cons.mp hnd).1 (hab ▸ List.mem_cons_self _ _)
    exact this (ha.trans hb.symm)

theorem alook_mem (l : List (κ × β)) (k : κ) (b : β) (h : alook l k = some b) :
    (k, b) ∈ l := by
  induction l with
  | nil => simp [alook] at h
  | cons p t ih =>
    obtain ⟨k₀, b₀⟩ := p
    simp only [alook] at h
    split at h
    · next heq =>
        injection h with h
        subst h
        subst heq
        exact List.mem_cons_self _ _
    · exact List.mem_cons_of_mem _ (ih h)

end Assoc

/-! ## The registry (`toaster()`)

`items` is the `Map<Key, DisposableMetadata>`.  A `Key` in the source is an
object `{ value: number }` used as a `Map` key, so keys compare by object
reference; the `id` field models that object identity (two `Key` objects
allocated separately have different `id`s even when their `value`s coincide).

Update events are counted in `updates`; the background watcher started by
`set` on a fresh key is recorded in `watchers` and fires as a separate
event-loop step (`watcherFire`) once both dispose deferrals have settled,
mirroring `await Promise.allSettled([...])` followed by
`items.delete(key); emitter.emit('update')`. -/

/-- A registry slot key: `value` is the number stored in the object,
`id` its object identity (JS `Map` keys objects by reference). -/
structure Key where
  id : Nat
  value : Nat
deriving DecidableEq, Repr

/-- Caller-facing metadata: the component and the props published for it.
Components and props payloads are opaque and identified by numbers. -/
structure Metadata where
  component : Nat
  props : Nat
deriving DecidableEq, Repr

/-- The per-slot pair of dispose deferrals, allocated once on fresh insert. -/
structure DisposeDeferrals where
  disposeBegin : Deferral Unit
  disposeFinish : Deferral Unit
deriving DecidableEq, Repr

/-- Source `DisposableMetadata`: metadata plus the slot's dispose deferrals. -/
structure Entry where
  component : Nat
  props : Nat
  deferrals : DisposeDeferrals
deriving DecidableEq, Repr

/-- The mutable state owned by one `toaster()` instance. -/
structure ToasterState where
  items : List (Key × Entry)
  updates : Nat
  watchers : List Key
deriving DecidableEq, Repr

/-- The state of a freshly constructed `toaster()`. -/
def ToasterState.init : ToasterState := ⟨[], 0, []⟩

/-- Both dispose deferrals of an entry have settled — the condition under
which the background watcher's `Promise.allSettled` join completes.
`allSettled` waits for both outcomes and never short-circuits on a
rejection, so only settledness (not success) matters, symmetrically. -/
def Entry.bothSettled (e : Entry) : Bool :=
  e.deferrals.disposeBegin.settled && e.deferrals.disposeFinish.settled

/-- Source `set(key, metadata)`: shallow-merge over an existing entry
(`{...item, ...metadata}` — the spread replaces `component` and `props` and
keeps `deferrals`), or insert a fresh entry with newly created dispose
deferrals and arm the background watcher.  Either branch then emits
`update` once, synchronously. -/
def ToasterState.set (s : ToasterState) (k : Key) (m : Metadata) : ToasterState :=
  match alook s.items k with
  | some item =>
      { s with
        items := aset s.items k { item with component := m.component, props := m.props }
        updates := s.updates + 1 }
  | none =>
      { s with
        items := aset s.items k ⟨m.component, m.props, ⟨defer, defer⟩⟩
        watchers := s.watchers ++ [k]
        updates := s.updates + 1 }

/-- Source `dispose(key, options)`: `items.get(key)?.deferrals.disposeBegin.resolve()`,
and, when `options.immediate` is set, also resolve `disposeFinish`.
(The `toaster().create` variant's `dispose(key)` is `dispose k false`.)
Absent keys are silently ignored; `items` membership never changes here. -/
def ToasterState.dispose (s : ToasterState) (k : Key) (immediate : Bool) : ToasterState :=
  let s1 : ToasterState :=
    { s with
      items := amodify s.items k fun e =>
        { e with deferrals := { e.deferrals with disposeBegin := e.deferrals.disposeBegin.resolve () } } }
  if immediate then
    { s1 with
      items := amodify s1.items k fun e =>
        { e with deferrals := { e.deferrals with disposeFinish := e.deferrals.disposeFinish.resolve () } } }
  else s1

/-- The background watcher continuation for key `k` runs: it is armed, its
`Promise.allSettled` join has completed (both deferrals settled), and then
`items.delete(key); emitter.emit('update')`. -/
def ToasterState.watcherFire (s : ToasterState) (k : Key) : ToasterState :=
  if k ∈ s.watchers ∧ (match alook s.items k with
      | some e => e.bothSettled
      | none => false) = true then
    { items := aerase s.items k
      updates := s.updates + 1
      watchers := s.watchers.erase k }
  else s

/-- Source `hasActive(component?)`: some entry passes the optional component filter
and its `disposeBegin` has not settled. -/
def ToasterState.hasActive (s : ToasterState) (filt : Option Nat) : Bool :=
  s.items.any fun p =>
    (match filt with
     | some c => p.2.component == c
     | none => true) && !p.2.deferrals.disposeBegin.settled

/-! ## The toastable adapter (`toastify` / `toaster().create`)

One adapter closes over two mutable variables, `deferral` and `key`.  The pop
deferrals it allocates live in a heap (`heap : List (Nat × Deferral Val)`)
addressed by allocation index, because the adapter variable, the props
published to the registry and the suspended `pop` bodies all alias the same
deferral object.

Each `pop(...)` invocation runs its synchronous prefix at call time
(`doPop`): reject the previous deferral with the Update signal, allocate a
fresh one, allocate or reuse the slot key, and publish metadata via
`toaster.set`.  The body then suspends at `await deferral.promise`; a
suspended invocation is recorded as `waitingOn d`.  Once the awaited deferral
has settled, the event loop may resume the invocation (`resumePop`): an
Update rejection is absorbed and the body re-awaits the adapter's *current*
deferral (the retry loop re-reads the closure variable), any other outcome
runs the `finally` block (`dispose(key); key = undefined`) and finishes with
that outcome. -/

/-- The adapter's closure variables `deferral` (by heap index) and `key`. -/
structure AdapterState where
  deferral : Option Nat
  key : Option Key
deriving DecidableEq, Repr

/-- The status of one `pop` invocation: suspended at `await` on the deferral
at heap index `d`, or finished with an outcome (fulfilled for a `return`,
rejected for a `throw`). -/
inductive PopInv where
  | waitingOn (d : Nat)
  | finished (o : Settlement Val)
deriving DecidableEq, Repr

/-- The whole system: one toaster, one adapter made from component
`component`, the heap of pop deferrals, and the `pop` invocations so far. -/
structure Sys where
  toaster : ToasterState
  heap : List (Nat × Deferral Val)
  nextDef : Nat
  adapter : AdapterState
  pops : List PopInv
  lastToastableKey : Nat
  nextKeyId : Nat
  component : Nat
deriving DecidableEq, Repr

/-- A fresh toaster plus a fresh adapter over `component`. -/
def Sys.init (component : Nat) : Sys :=
  { toaster := ToasterState.init
    heap := []
    nextDef := 0
    adapter := ⟨none, none⟩
    pops := []
    lastToastableKey := 0
    nextKeyId := 0
    component := component }

/-- The synchronous prefix of `pop(props)`:
`deferral?.reject(RejectionReason.Update); deferral = defer();` then allocate
the key if absent (`lastToastableKey += 1; key = { value: lastToastableKey }`,
a fresh object) and `toaster.set(key, { component, props: {...props, resolve,
reject} })`; the body then suspends awaiting the new deferral. -/
def Sys.doPop (s : Sys) (props : Nat) : Sys :=
  let heap1 := match s.adapter.deferral with
    | some d => amodify s.heap d fun df => df.reject .update
    | none => s.heap
  let dNew := s.nextDef
  let heap2 := aset heap1 dNew defer
  let keyInfo : Key × Nat × Nat := match s.adapter.key with
    | some k => (k, s.lastToastableKey, s.nextKeyId)
    | none => (⟨s.nextKeyId, s.lastToastableKey + 1⟩, s.lastToastableKey + 1, s.nextKeyId + 1)
  { toaster := s.toaster.set keyInfo.1 ⟨s.component, props⟩
    heap := heap2
    nextDef := dNew + 1
    adapter := ⟨some dNew, some keyInfo.1⟩
    pops := s.pops ++ [.waitingOn dNew]
    lastToastableKey := keyInfo.2.1
    nextKeyId := keyInfo.2.2
    component := s.component }

/-- The rendered component (or any holder of the `resolve`/`reject` props)
settles the deferral at heap index `d`; both callbacks carry the source's
`settled` guard. -/
def Sys.settleDef (s : Sys) (d : Nat) (o : Settlement Val) : Sys :=
  { s with heap := amodify s.heap d fun df => df.settle o }

/-- Source `discard()`: `deferral?.reject(new ToastCancelled())` — reject the
adapter's current deferral, if any, with the host-cancellation error. -/
def Sys.discard (s : Sys) : Sys :=
  match s.adapter.deferral with
  | some d => { s with heap := amodify s.heap d fun df => df.reject .host }
  | none => s

/-- Resume the suspended `pop` invocation `i` once the deferral it awaits has
settled.  An Update rejection is absorbed by the retry loop (`catch (e) { if
(e !== RejectionReason.Update) throw e }`) and the body re-awaits
`deferral.promise`, re-reading the adapter's current `deferral` variable.
Any other outcome leaves the loop, runs the `finally` block
(`toaster.dispose(key); key = undefined`) and settles the invocation's
promise with that outcome. -/
def Sys.resumePop (s : Sys) (i : Nat) : Sys :=
  match s.pops.get? i with
  | some (.waitingOn d) =>
    match alook s.heap d with
    | some ⟨some o⟩ =>
      match o with
      | .rejectedWith .update =>
          { s with pops := s.pops.set i (.waitingOn (s.adapter.deferral.getD d)) }
      | _ =>
          let t := match s.adapter.key with
            | some k => s.toaster.dispose k false
            | none => s.toaster
          { s with
            pops := s.pops.set i (.finished o)
            toaster := t
            adapter := { s.adapter with key := none } }
    | _ => s
  | _ => s

/-- One event-loop step of the whole system: a `pop` call, a settlement of a
pop deferral through its published `resolve`/`reject` props, a resumption of
a suspended `pop` body, a `discard()` call, a direct `dispose` call on the
toaster, or a background watcher continuation. -/
inductive Step : Sys → Sys → Prop where
  | pop (s : Sys) (props : Nat) : Step s (s.doPop props)
  | settle (s : Sys) (d : Nat) (o : Settlement Val) : Step s (s.settleDef d o)
  | resume (s : Sys) (i : Nat) : Step s (s.resumePop i)
  | discard (s : Sys) : Step s s.discard
  | dispose (s : Sys) (k : Key) (immediate : Bool) :
      Step s { s with toaster := s.toaster.dispose k immediate }
  | watcher (s : Sys) (k : Key) :
      Step s { s with toaster := s.toaster.watcherFire k }

/-- States reachable from a fresh toaster-plus-adapter. -/
inductive Reachable : Sys → Prop where
  | init (component : Nat) : Reachable (Sys.init component)
  | step {s s' : Sys} : Reachable s → Step s s' → Reachable s'

/-! ## The system invariant -/

/-- Structural invariant of reachable states: heap indices are below the
allocator and duplicate-free, every unsettled pop deferral is the adapter's
current one, and key identities in the registry and the adapter are below
the key-identity allocator. -/
structure Inv (s : Sys) : Prop where
  heapKeys : ∀ a ∈ s.heap.map Prod.fst, a < s.nextDef
  heapNodup : (s.heap.map Prod.fst).Nodup
  unsettled_current : ∀ d df, (d, df) ∈ s.heap → df.status = none →
    s.adapter.deferral = some d
  itemKeys : ∀ k ∈ s.toaster.items.map Prod.fst, k.id < s.nextKeyId
  adapterKey : ∀ k, s.adapter.key = some k → k.id < s.nextKeyId

theorem settle_not_none {α : Type} (d : Deferral α) (o : Settlement α) :
    ¬ (d.settle o).status = none := by
  unfold Deferral.settle Deferral.settled
  cases h : d.status with
  | none => simp [h]
  | some o' => simp [h]

theorem reject_not_none {α : Type} (d : Deferral α) (r : Reason) :
    ¬ (d.reject r).status = none :=
  settle_not_none d (.rejectedWith r)

theorem inv_init (c : Nat) : Inv (Sys.init c) := by
  constructor <;> simp [Sys.init, ToasterState.init]

/-! Projection equations for `doPop`, by cases on the adapter variables. -/

theorem doPop_heap_none (s : Sys) (props : Nat) (hd : s.adapter.deferral = none) :
    (s.doPop props).heap = aset s.heap s.nextDef defer := by
  simp only [Sys.doPop, hd]

theorem doPop_heap_some (s : Sys) (props : Nat) (d0 : Nat)
    (hd : s.adapter.deferral = some d0) :
    (s.doPop props).heap =
      aset (amodify s.heap d0 fun df => df.reject .update) s.nextDef defer := by
  simp only [Sys.doPop, hd]

theorem doPop_deferral (s : Sys) (props : Nat) :
    (s.doPop props).adapter.deferral = some s.nextDef := rfl

theorem doPop_nextDef (s : Sys) (props : Nat) :
    (s.doPop props).nextDef = s.nextDef + 1 := rfl

theorem doPop_pops (s : Sys) (props : Nat) :
    (s.doPop props).pops = s.pops ++ [.waitingOn s.nextDef] := rfl

theorem doPop_component (s : Sys) (props : Nat) :
    (s.doPop props).component = s.component := rfl

theorem doPop_key_none (s : Sys) (props : Nat) (hk : s.adapter.key = none) :
    (s.doPop props).adapter.key = some ⟨s.nextKeyId, s.lastToastableKey + 1⟩ ∧
    (s.doPop props).toaster =
      s.toaster.set ⟨s.nextKeyId, s.lastToastableKey + 1⟩ ⟨s.component, props⟩ ∧
    (s.doPop props).nextKeyId = s.nextKeyId + 1 ∧
    (s.doPop props).lastToastableKey = s.lastToastableKey + 1 := by
  refine ⟨?_, ?_, ?_, ?_⟩ <;> simp only [Sys.doPop, hk]

theorem doPop_key_some (s : Sys) (props : Nat) (k0 : Key)
    (hk : s.adapter.key = some k0) :
    (s.doPop props).adapter.key = some k0 ∧
    (s.doPop props).toaster = s.toaster.set k0 ⟨s.component, props⟩ ∧
    (s.doPop props).nextKeyId = s.nextKeyId ∧
    (s.doPop props).lastToastableKey = s.lastToastableKey := by
  refine ⟨?_, ?_, ?_, ?_⟩ <;> simp only [Sys.doPop, hk]

/-- Registry `set` never shrinks the key set: keys after `set` are the new key or an
old key. -/
theorem set_keys_sub (t : ToasterState) (k : Key) (m : Metadata) (k' : Key)
    (h : k' ∈ (t.set k m).items.map Prod.fst) :
    k' = k ∨ k' ∈ t.items.map Prod.fst := by
  rcases List.mem_map.mp h with ⟨p, hp, hpk⟩
  subst hpk
  unfold ToasterState.set at hp
  rcases hset : alook t.items k with _ | item <;> simp only [hset] at hp <;>
    rcases mem_aset _ _ _ _ hp with hp' | hp'
  · exact Or.inl (by rw [hp'])
  · exact Or.inr (mem_keys_of_mem _ _ hp')
  · exact Or.inl (by rw [hp'])
  · exact Or.inr (mem_keys_of_mem _ _ hp')

theorem inv_doPop (s : Sys) (hs : Inv s) (props : Nat) : Inv (s.doPop props) := by
  obtain ⟨hHK, hHN, hUC, hIK, hAK⟩ := hs
  -- the heap just before appending the fresh deferral, and its key set
  have hmain : ∀ heap1 : List (Nat × Deferral Val),
      heap1.map Prod.fst = s.heap.map Prod.fst →
      alook heap1 s.nextDef = none := by
    intro h1 hk
    refine alook_eq_none_of_not_mem_keys _ _ fun hmem => ?_
    exact absurd (hHK _ (hk ▸ hmem)) (lt_irrefl _)
  have hheap : ∀ heap1 : List (Nat × Deferral Val),
      heap1.map Prod.fst = s.heap.map Prod.fst →
      aset heap1 s.nextDef defer = heap1 ++ [(s.nextDef, defer)] :=
    fun h1 hk => aset_eq_append _ _ _ (hmain h1 hk)
  have hkeys2 : ∀ heap1 : List (Nat × Deferral Val),
      heap1.map Prod.fst = s.heap.map Prod.fst →
      (aset heap1 s.nextDef defer).map Prod.fst =
        s.heap.map Prod.fst ++ [s.nextDef] := by
    intro h1 hk
    rw [hheap h1 hk, List.map_append, hk]
    rfl
  have hheapEq : (s.doPop props).heap = (match s.adapter.deferral with
      | some d0 => amodify s.heap d0 fun df => df.reject .update
      | none => s.heap) ++ [(s.nextDef, defer)] := by
    rcases hd : s.adapter.deferral with _ | d0
    · rw [doPop_heap_none s props hd, hheap _ rfl]
    · rw [doPop_heap_some s props d0 hd, hheap _ (amodify_keys ..)]
  have hkeysEq : (s.doPop props).heap.map Prod.fst =
      s.heap.map Prod.fst ++ [s.nextDef] := by
    rw [hheapEq]
    rcases hd : s.adapter.deferral with _ | d0 <;>
      simp only [List.map_append, amodify_keys] <;> rfl
  constructor
  · intro a ha
    rw [hkeysEq, List.mem_append] at ha
    rw [doPop_nextDef]
    rcases ha with ha | ha
    · exact Nat.lt_succ_of_lt (hHK a ha)
    · simp at ha
      omega
  · rw [hkeysEq]
    refine List.Nodup.append hHN (List.nodup_singleton _) ?_
    intro a ha hb
    simp only [List.mem_singleton] at hb
    subst hb
    exact absurd (hHK _ ha) (lt_irrefl _)
  · intro d df hmem hstat
    rw [hheapEq] at hmem
    rw [doPop_deferral]
    rcases List.mem_append.mp hmem with hmem | hmem
    · exfalso
      rcases hd : s.adapter.deferral with _ | d0 <;> rw [hd] at hmem
      · exact absurd (hUC d df hmem hstat) (by simp [hd])
      · obtain ⟨hne, hmem'⟩ := mem_amodify_not_fixed _ _ _
          (fun b => b.status = none) (fun b => reject_not_none b .update) _ _ hmem hstat
        have h2 := hUC d df hmem' hstat
        rw [hd] at h2
        injection h2 with h2
        exact hne h2.symm
    · simp only [List.mem_singleton] at hmem
      injection hmem with h1 h2
      rw [h1]
  · intro k hk
    rcases hkey : s.adapter.key with _ | k0
    · obtain ⟨-, htoast, hnext, -⟩ := doPop_key_none s props hkey
      rw [htoast] at hk
      rw [hnext]
      rcases set_keys_sub _ _ _ _ hk with h | h
      · rw [h]
        exact Nat.lt_succ_self _
      · exact Nat.lt_succ_of_lt (hIK _ h)
    · obtain ⟨-, htoast, hnext, -⟩ := doPop_key_some s props k0 hkey
      rw [htoast] at hk
      rw [hnext]
      rcases set_keys_sub _ _ _ _ hk with h | h
      · rw [h]
        exact hAK k0 hkey
      · exact hIK _ h
  · intro k hk
    rcases hkey : s.adapter.key with _ | k0
    · obtain ⟨hka, -, hnext, -⟩ := doPop_key_none s props hkey
      rw [hka] at hk
      rw [hnext]
      injection hk with hk
      subst hk
      exact Nat.lt_succ_self _
    · obtain ⟨hka, -, hnext, -⟩ := doPop_key_some s props k0 hkey
      rw [hka] at hk
      rw [hnext]
      injection hk with hk
      subst hk
      exact hAK k0 hkey

/-- Registry `dispose` only resolves deferrals inside entries: the key list of the
registry is untouched (in particular no entry is added or removed). -/
theorem dispose_keys (t : ToasterState) (k : Key) (imm : Bool) :
    (t.dispose k imm).items.map Prod.fst = t.items.map Prod.fst := by
  unfold ToasterState.dispose
  by_cases h : imm <;> simp [h, amodify_keys]

theorem dispose_updates (t : ToasterState) (k : Key) (imm : Bool) :
    (t.dispose k imm).updates = t.updates := by
  unfold ToasterState.dispose
  by_cases h : imm <;> simp [h]

theorem dispose_watchers (t : ToasterState) (k : Key) (imm : Bool) :
    (t.dispose k imm).watchers = t.watchers := by
  unfold ToasterState.dispose
  by_cases h : imm <;> simp [h]

/-- Invariant transfer along a step that leaves the heap, the current
deferral, both allocators and the registry key set essentially unchanged. -/
theorem inv_of_parts (s s' : Sys) (hs : Inv s)
    (hheap : s'.heap = s.heap)
    (hdef : s'.adapter.deferral = s.adapter.deferral)
    (hnd : s'.nextDef = s.nextDef)
    (hkeys : ∀ k ∈ s'.toaster.items.map Prod.fst, k ∈ s.toaster.items.map Prod.fst)
    (hnk : s'.nextKeyId = s.nextKeyId)
    (hak : ∀ k, s'.adapter.key = some k → k.id < s.nextKeyId) : Inv s' := by
  obtain ⟨hHK, hHN, hUC, hIK, hAK⟩ := hs
  constructor
  · intro a ha
    rw [hheap] at ha
    rw [hnd]
    exact hHK a ha
  · rw [hheap]
    exact hHN
  · intro d df hmem hstat
    rw [hheap] at hmem
    rw [hdef]
    exact hUC d df hmem hstat
  · intro k hk
    rw [hnk]
    exact hIK k (hkeys k hk)
  · intro k hk
    rw [hnk]
    exact hak k hk

theorem inv_settleDef (s : Sys) (hs : Inv s) (d : Nat) (o : Settlement Val) :
    Inv (s.settleDef d o) := by
  obtain ⟨hHK, hHN, hUC, hIK, hAK⟩ := hs
  refine ⟨?_, ?_, ?_, hIK, hAK⟩
  · intro a ha
    exact hHK a (by simpa [Sys.settleDef, amodify_keys] using ha)
  · simpa [Sys.settleDef, amodify_keys] using hHN
  · intro d' df hmem hstat
    obtain ⟨-, hmem'⟩ := mem_amodify_not_fixed _ _ _
      (fun b => b.status = none) (fun b => settle_not_none b o) _ _ hmem hstat
    exact hUC d' df hmem' hstat

theorem inv_discard (s : Sys) (hs : Inv s) : Inv s.discard := by
  unfold Sys.discard
  rcases hd : s.adapter.deferral with _ | d0
  · exact hs
  · obtain ⟨hHK, hHN, hUC, hIK, hAK⟩ := hs
    refine ⟨?_, ?_, ?_, hIK, hAK⟩
    · intro a ha
      exact hHK a (by simpa [amodify_keys] using ha)
    · simpa [amodify_keys] using hHN
    · intro d' df hmem hstat
      obtain ⟨-, hmem'⟩ := mem_amodify_not_fixed _ _ _
        (fun b => b.status = none) (fun b => reject_not_none b .host) _ _ hmem hstat
      exact hUC d' df hmem' hstat

theorem inv_disposeStep (s : Sys) (hs : Inv s) (k : Key) (imm : Bool) :
    Inv { s with toaster := s.toaster.dispose k imm } := by
  refine inv_of_parts s _ hs rfl rfl rfl ?_ rfl fun k' hk' => hs.adapterKey k' hk'
  intro k' hk'
  exact dispose_keys s.toaster k imm ▸ hk'

theorem inv_watcherStep (s : Sys) (hs : Inv s) (k : Key) :
    Inv { s with toaster := s.toaster.watcherFire k } := by
  refine inv_of_parts s _ hs rfl rfl rfl ?_ rfl fun k' hk' => hs.adapterKey k' hk'
  intro k' hk'
  have hk'' : k' ∈ (s.toaster.watcherFire k).items.map Prod.fst := hk'
  unfold ToasterState.watcherFire at hk''
  split at hk''
  · rcases List.mem_map.mp hk'' with ⟨p, hp, hpk⟩
    subst hpk
    exact mem_keys_of_mem _ _ (mem_aerase _ _ _ hp)
  · exact hk''

/-- The `finally` branch of `resumePop` (any settled outcome other than an
Update rejection) preserves the invariant. -/
theorem inv_resumePop_finished (s : Sys) (hs : Inv s) (i : Nat) (o : Settlement Val) :
    Inv { s with
          pops := s.pops.set i (.finished o)
          toaster := match s.adapter.key with
            | some k => s.toaster.dispose k false
            | none => s.toaster
          adapter := { s.adapter with key := none } } := by
  refine inv_of_parts s _ hs rfl rfl rfl ?_ rfl (by simp)
  intro k' hk'
  rcases hkey : s.adapter.key with _ | k0
  · rw [hkey] at hk'
    exact hk'
  · rw [hkey] at hk'
    exact dispose_keys s.toaster k0 false ▸ hk'

theorem inv_resumePop (s : Sys) (hs : Inv s) (i : Nat) : Inv (s.resumePop i) := by
  unfold Sys.resumePop
  rcases hp : s.pops.get? i with _ | pi
  · simp only [hp]
    exact hs
  · simp only [hp]
    rcases pi with d | o
    · rcases hdf : alook s.heap d with _ | df
      · simp only [hdf]
        exact hs
      · simp only [hdf]
        rcases df with ⟨_ | o⟩
        · exact hs
        · rcases o with v | r
          · exact inv_resumePop_finished s hs i _
          · rcases r with _ | _ | _ | n
            · exact inv_of_parts s _ hs rfl rfl rfl (fun k' hk' => hk') rfl
                fun k' hk' => hs.adapterKey k' hk'
            · exact inv_resumePop_finished s hs i _
            · exact inv_resumePop_finished s hs i _
            · exact inv_resumePop_finished s hs i _
    · simp only []
      exact hs

/-- Every step preserves the invariant. -/
theorem inv_step {s s' : Sys} (hs : Inv s) (hstep : Step s s') : Inv s' := by
  cases hstep with
  | pop props => exact inv_doPop s hs props
  | settle d o => exact inv_settleDef s hs d o
  | resume i => exact inv_resumePop s hs i
  | discard => exact inv_discard s hs
  | dispose k imm => exact inv_disposeStep s hs k imm
  | watcher k => exact inv_watcherStep s hs k

/-- Every reachable state satisfies the invariant. -/
theorem reachable_inv {s : Sys} (h : Reachable s) : Inv s := by
  induction h with
  | init c => exact inv_init c
  | step _ hstep ih => exact inv_step ih hstep

/-! ## Further helper lemmas -/

section AssocMore

variable {κ β : Type} [DecidableEq κ]

theorem alook_append_of_some (l l' : List (κ × β)) (k : κ) (b : β)
    (h : alook l k = some b) : alook (l ++ l') k = some b := by
  induction l with
  | nil => simp [alook] at h
  | cons p t ih =>
    obtain ⟨k₀, b₀⟩ := p
    by_cases h0 : k₀ = k
    · simp only [alook, if_pos h0] at h ⊢
      exact h
    · simp only [alook, if_neg h0] at h ⊢
      exact ih h

theorem alook_append_of_none (l l' : List (κ × β)) (k : κ)
    (h : alook l k = none) : alook (l ++ l') k = alook l' k := by
  induction l with
  | nil => rfl
  | cons p t ih =>
    obtain ⟨k₀, b₀⟩ := p
    by_cases h0 : k₀ = k
    · simp [alook, if_pos h0] at h
    · simp only [alook, if_neg h0] at h ⊢
      exact ih h

end AssocMore

/-- Number of unsettled deferrals in a pop-deferral heap. -/
def unsettledCount (h : List (Nat × Deferral Val)) : Nat :=
  (h.filter fun p => !p.2.settled).length

theorem unsettledCount_le_one (s : Sys) (hs : Inv s) : unsettledCount s.heap ≤ 1 := by
  unfold unsettledCount
  have hmem : ∀ p ∈ s.heap.filter (fun p => !p.2.settled),
      s.adapter.deferral = some p.1 := by
    intro p hp
    have h1 := List.mem_of_mem_filter hp
    have h2 := List.of_mem_filter hp
    have h3 : p.2.status = none := by
      rcases hst : p.2.status with _ | o
      · rfl
      · exfalso
        have hset : p.2.settled = true := by simp [Deferral.settled, hst]
        simp [hset] at h2
    exact hs.unsettled_current p.1 p.2 (by simpa using h1) h3
  rcases hd : s.adapter.deferral with _ | d0
  · rcases hl : s.heap.filter (fun p => !p.2.settled) with _ | ⟨p, t⟩
    · simp [hl]
    · exfalso
      have hx := hmem p (hl ▸ List.mem_cons_self p t)
      rw [hd] at hx
      exact Option.noConfusion hx
  · have hkeys : ∀ a ∈ (s.heap.filter fun p => !p.2.settled).map Prod.fst, a = d0 := by
      intro a ha
      rcases List.mem_map.mp ha with ⟨p, hp, hpa⟩
      have hx := hmem p hp
      rw [hd] at hx
      injection hx with hx
      rw [← hpa, ← hx]
    have hnd : ((s.heap.filter fun p => !p.2.settled).map Prod.fst).Nodup :=
      hs.heapNodup.sublist (List.Sublist.map _ (List.filter_sublist _))
    have hlen := length_le_one_of_nodup_all_eq _ d0 hnd hkeys
    simpa using hlen

/-- The heap after `pop`'s synchronous prefix: the old current deferral (if
any) rejected with the Update signal, then the fresh deferral appended. -/
theorem doPop_heap_eq (s : Sys) (hs : Inv s) (props : Nat) :
    (s.doPop props).heap =
      (match s.adapter.deferral with
        | some d0 => amodify s.heap d0 fun df => df.reject .update
        | none => s.heap) ++ [(s.nextDef, defer)] := by
  have hnone : ∀ h1 : List (Nat × Deferral Val),
      h1.map Prod.fst = s.heap.map Prod.fst → alook h1 s.nextDef = none := by
    intro h1 hk
    refine alook_eq_none_of_not_mem_keys _ _ fun hmemk => ?_
    exact absurd (hs.heapKeys _ (hk ▸ hmemk)) (lt_irrefl _)
  rcases hd : s.adapter.deferral with _ | d0
  · rw [doPop_heap_none s props hd, aset_eq_append _ _ _ (hnone _ rfl)]
  · rw [doPop_heap_some s props d0 hd, aset_eq_append _ _ _ (hnone _ (amodify_keys ..))]

/-! ## C5 — `defer` settles exactly once -/

/-- C5: `defer()` returns a Deferral whose promise settles exactly once:
before any call its `settled` flag is `false` and it has no outcome; `settled`
is `true` immediately (synchronously) after any `resolve`/`reject` call;
`resolve`/`reject` after the first settlement are complete no-ops (the
deferral, hence its promise outcome, is unchanged and nothing is thrown); and
an outcome, once present, is never changed by later calls. -/
theorem defer_settles_exactly_once :
    ((defer : Deferral Val).settled = false ∧ (defer : Deferral Val).status = none) ∧
    (∀ (d : Deferral Val) (v : Val), (d.resolve v).settled = true) ∧
    (∀ (d : Deferral Val) (r : Reason), (d.reject r).settled = true) ∧
    (∀ (d : Deferral Val) (v : Val) (r : Reason),
      d.settled = true → d.resolve v = d ∧ d.reject r = d) ∧
    (∀ (d : Deferral Val) (o : Settlement Val) (v : Val) (r : Reason),
      d.status = some o → (d.resolve v).status = some o ∧ (d.reject r).status = some o) := by
  refine ⟨⟨rfl, rfl⟩, ?_, ?_, ?_, ?_⟩
  · intro d v
    rcases d with ⟨_ | o⟩ <;> simp [Deferral.resolve, Deferral.settled]
  · intro d r
    rcases d with ⟨_ | o⟩ <;> simp [Deferral.reject, Deferral.settled]
  · intro d v r h
    unfold Deferral.resolve Deferral.reject
    simp [h]
  · intro d o v r h
    have hset : d.settled = true := by simp [Deferral.settled, h]
    unfold Deferral.resolve Deferral.reject
    simp [hset, h]

/-- Witness for C5 at a concrete deferral: `defer` resolved with `3` is
settled, and a second `resolve`/`reject` leaves it unchanged. -/
theorem defer_settles_exactly_once_witness :
    ((defer : Deferral Val).resolve 3).settled = true ∧
    ((defer : Deferral Val).resolve 3).resolve 4 = (defer : Deferral Val).resolve 3 ∧
    ((defer : Deferral Val).resolve 3).reject .host = (defer : Deferral Val).resolve 3 ∧
    (((defer : Deferral Val).resolve 3).reject .host).status = some (.resolvedWith 3) := by
  have h := defer_settles_exactly_once
  have h1 := h.2.1 (defer : Deferral Val) 3
  have h2 := (h.2.2.2.1 ((defer : Deferral Val).resolve 3) 4 .host h1)
  have h3 := (h.2.2.2.2 ((defer : Deferral Val).resolve 3) (.resolvedWith 3) 4 .host (by decide))
  exact ⟨h1, h2.1, h2.2, h3.2⟩

/-! ## C1 — at most one unsettled Deferral per adapter -/

/-- C1: In every reachable state at most one pop deferral of the adapter
is unsettled, and this is maintained by `pop` itself: a `pop` call first
rejects the previously stored deferral with the Update signal (when one
exists and is unsettled, its outcome becomes the Update rejection) before
storing the fresh, unsettled deferral as the new current one. -/
theorem pop_supersede_single_live_deferral (s : Sys) (hreach : Reachable s) (props : Nat) :
    unsettledCount s.heap ≤ 1 ∧
    unsettledCount (s.doPop props).heap ≤ 1 ∧
    (s.doPop props).adapter.deferral = some s.nextDef ∧
    alook (s.doPop props).heap s.nextDef = some defer ∧
    (∀ d df, s.adapter.deferral = some d → alook s.heap d = some df →
      df.settled = false →
      alook (s.doPop props).heap d = some ⟨some (.rejectedWith .update)⟩) := by
  have hs := reachable_inv hreach
  have hs' := reachable_inv (Reachable.step hreach (Step.pop s props))
  refine ⟨unsettledCount_le_one s hs, unsettledCount_le_one _ hs',
    doPop_deferral s props, ?_, ?_⟩
  · rw [doPop_heap_eq s hs props]
    have hnone : ∀ h1 : List (Nat × Deferral Val),
        h1.map Prod.fst = s.heap.map Prod.fst → alook h1 s.nextDef = none := by
      intro h1 hk
      refine alook_eq_none_of_not_mem_keys _ _ fun hmemk => ?_
      exact absurd (hs.heapKeys _ (hk ▸ hmemk)) (lt_irrefl _)
    rcases hd : s.adapter.deferral with _ | d0
    · rw [alook_append_of_none _ _ _ (hnone _ rfl)]
      simp [alook]
    · rw [alook_append_of_none _ _ _ (hnone _ (amodify_keys ..))]
      simp [alook]
  · intro d df hd hdf hunset
    rw [doPop_heap_eq s hs props, hd]
    have hstat : df.status = none := by
      rcases hst : df.status with _ | o
      · rfl
      · simp [Deferral.settled, hst] at hunset
    have hrej : df.reject .update = ⟨some (.rejectedWith .update)⟩ := by
      unfold Deferral.reject
      rw [if_neg (by simp [hunset])]
    refine alook_append_of_some _ _ _ _ ?_
    rw [alook_eq_some_of_mem_amodify _ _ _ _ hdf, hrej]

/-- Witness for C1: from the reachable state after one `pop` (one unsettled
deferral), a second `pop` rejects deferral `0` with the Update signal and
keeps the unsettled count at one. -/
theorem pop_supersede_single_live_deferral_witness :
    unsettledCount (((Sys.init 0).doPop 3).doPop 4).heap ≤ 1 ∧
    alook (((Sys.init 0).doPop 3).doPop 4).heap 0 =
      some ⟨some (.rejectedWith .update)⟩ := by
  have hreach : Reachable ((Sys.init 0).doPop 3) :=
    Reachable.step (Reachable.init 0) (Step.pop (Sys.init 0) 3)
  have h := pop_supersede_single_live_deferral ((Sys.init 0).doPop 3) hreach 4
  exact ⟨h.2.1, h.2.2.2.2 0 defer (by decide) (by decide) (by decide)⟩

/-! ## More association-list and registry helpers -/

section AssocEvenMore

variable {κ β : Type} [DecidableEq κ]

theorem alook_eq_none_iff (l : List (κ × β)) (k : κ) :
    alook l k = none ↔ k ∉ l.map Prod.fst := by
  induction l with
  | nil => simp [alook]
  | cons p t ih =>
    obtain ⟨k₀, b₀⟩ := p
    by_cases h0 : k₀ = k
    · subst h0
      simp [alook]
    · simp [alook, h0, ih, Ne.symm h0]

theorem mem_keys_aset (l : List (κ × β)) (k : κ) (b : β) (k' : κ)
    (h : k' ∈ l.map Prod.fst) : k' ∈ (aset l k b).map Prod.fst := by
  induction l with
  | nil => simp at h
  | cons p t ih =>
    obtain ⟨k₀, b₀⟩ := p
    by_cases h0 : k₀ = k
    · subst h0
      simp only [aset, if_pos rfl, List.map_cons] at *
      exact h
    · simp only [aset, if_neg h0, List.map_cons] at *
      rcases List.mem_cons.mp h with h | h
      · exact List.mem_cons.mpr (Or.inl h)
      · exact List.mem_cons.mpr (Or.inr (ih h))

theorem mem_keys_of_alook (l : List (κ × β)) (k : κ) (b : β)
    (h : alook l k = some b) : k ∈ l.map Prod.fst :=
  mem_keys_of_mem _ _ (alook_mem _ _ _ h)

end AssocEvenMore

/-- Registry `set` never shrinks the key set (keys grow or stay, entries are never
removed by `set`). -/
theorem set_keys_sup (t : ToasterState) (k : Key) (m : Metadata) (k' : Key)
    (h : k' ∈ t.items.map Prod.fst) : k' ∈ (t.set k m).items.map Prod.fst := by
  unfold ToasterState.set
  rcases hset : alook t.items k with _ | item <;> simp only [hset] <;>
    exact mem_keys_aset _ _ _ _ h

/-- Case analysis of the registry effect of resuming a pop: either nothing,
or the `finally` block's `dispose(key, false)`. -/
theorem resumePop_toaster_cases (s : Sys) (i : Nat) :
    (s.resumePop i).toaster = s.toaster ∨
    ∃ k0, s.adapter.key = some k0 ∧
      (s.resumePop i).toaster = s.toaster.dispose k0 false := by
  unfold Sys.resumePop
  rcases hp : s.pops.get? i with _ | pi
  · exact Or.inl rfl
  · rcases pi with d | o
    · dsimp only
      rcases hdf : alook s.heap d with _ | df
      · exact Or.inl rfl
      · rcases df with ⟨_ | o⟩
        · exact Or.inl rfl
        · dsimp only
          have hkey :
              (match s.adapter.key with
                | some k => s.toaster.dispose k false
                | none => s.toaster) = s.toaster ∨
              ∃ k0, s.adapter.key = some k0 ∧
                (match s.adapter.key with
                  | some k => s.toaster.dispose k false
                  | none => s.toaster) = s.toaster.dispose k0 false := by
            rcases hk : s.adapter.key with _ | k0
            · exact Or.inl rfl
            · exact Or.inr ⟨k0, rfl, rfl⟩
          rcases o with v | r
          · exact hkey
          · rcases r with _ | _ | _ | n
            · exact Or.inl rfl
            · exact hkey
            · exact hkey
            · exact hkey
    · exact Or.inl rfl

theorem discard_toaster (s : Sys) : s.discard.toaster = s.toaster := by
  unfold Sys.discard
  rcases hd : s.adapter.deferral with _ | d0 <;> simp only [hd]

/-- Characterization of what it takes for a key present in the registry to be
absent after a watcher continuation runs: the fired key is that key, its
entry's dispose deferrals have both settled, and the removal emits one
`update` event. -/
theorem watcherFire_remove_char (t : ToasterState) (k0 k : Key) (e : Entry)
    (he : alook t.items k = some e)
    (hnone : alook (t.watcherFire k0).items k = none) :
    e.bothSettled = true ∧ (t.watcherFire k0).updates = t.updates + 1 := by
  unfold ToasterState.watcherFire at hnone ⊢
  by_cases hcond : k0 ∈ t.watchers ∧ (match alook t.items k0 with
      | some e => e.bothSettled
      | none => false) = true
  · rw [if_pos hcond] at hnone ⊢
    refine ⟨?_, rfl⟩
    by_cases hkk : k = k0
    · subst hkk
      have h2 := hcond.2
      rw [he] at h2
      exact h2
    · rw [alook_aerase_ne _ _ _ hkk] at hnone
      rw [he] at hnone
      exact Option.noConfusion hnone
  · rw [if_neg hcond] at hnone
    rw [he] at hnone
    exact Option.noConfusion hnone

/-! ## C2 — removal only after both dispose deferrals settle -/

/-- C2: An entry inserted by `set` on a fresh key (with its two fresh
dispose deferrals and its armed background watcher) is removed by no step of
the system while either dispose deferral is unsettled: any step that takes an
entry from present to absent requires both deferrals of that entry settled
(the `Promise.allSettled` join waits for settledness only — success or
failure — and never short-circuits), and that removal emits one `update`
event.  `dispose` itself never removes an entry regardless of the `immediate`
option; after `dispose(key)` without `immediate` the entry's `disposeFinish`
is untouched and the watcher cannot fire until `disposeFinish` is separately
settled; once both deferrals have settled the armed watcher deletes the entry
and emits `update`. -/
theorem entry_removed_only_after_both_settled :
    (∀ s s' : Sys, Step s s' → ∀ k e, alook s.toaster.items k = some e →
      alook s'.toaster.items k = none →
      e.bothSettled = true ∧ s'.toaster.updates = s.toaster.updates + 1) ∧
    (∀ (t : ToasterState) (k k' : Key) (imm : Bool),
      alook (t.dispose k imm).items k' = none ↔ alook t.items k' = none) ∧
    (∀ (t : ToasterState) (k : Key) (m : Metadata), alook t.items k = none →
      alook (t.set k m).items k = some ⟨m.component, m.props, ⟨defer, defer⟩⟩ ∧
      k ∈ (t.set k m).watchers) ∧
    (∀ (t : ToasterState) (k : Key) (e : Entry), alook t.items k = some e →
      alook (t.dispose k false).items k = some
        ⟨e.component, e.props, ⟨e.deferrals.disposeBegin.resolve (), e.deferrals.disposeFinish⟩⟩ ∧
      (e.deferrals.disposeFinish.settled = false →
        (t.dispose k false).watcherFire k = t.dispose k false)) ∧
    (∀ (t : ToasterState) (k : Key) (e : Entry), k ∈ t.watchers →
      alook t.items k = some e → e.bothSettled = true →
      alook (t.watcherFire k).items k = none ∧
      (t.watcherFire k).updates = t.updates + 1) := by
  refine ⟨?_, ?_, ?_, ?_, ?_⟩
  · intro s s' hstep k e he hnone
    cases hstep with
    | pop props =>
      exfalso
      have hex : ∃ kk, (s.doPop props).toaster = s.toaster.set kk ⟨s.component, props⟩ := by
        rcases hkey : s.adapter.key with _ | k0
        · exact ⟨_, (doPop_key_none s props hkey).2.1⟩
        · exact ⟨_, (doPop_key_some s props k0 hkey).2.1⟩
      obtain ⟨kk, htoast⟩ := hex
      have hnone' : alook ((s.doPop props).toaster.items) k = none := hnone
      rw [htoast] at hnone'
      exact (alook_eq_none_iff _ _).mp hnone'
        (set_keys_sup _ kk _ k (mem_keys_of_alook _ _ _ he))
    | settle d o =>
      exfalso
      have h2 : alook s.toaster.items k = none := hnone
      rw [he] at h2
      exact Option.noConfusion h2
    | resume i =>
      exfalso
      rcases resumePop_toaster_cases s i with h | ⟨k0, -, h⟩
      · have h2 : alook (s.resumePop i).toaster.items k = none := hnone
        rw [h, he] at h2
        exact Option.noConfusion h2
      · have h2 : alook (s.resumePop i).toaster.items k = none := hnone
        rw [h] at h2
        have h3 := (alook_eq_none_iff _ _).mp h2
        rw [dispose_keys] at h3
        exact h3 (mem_keys_of_alook _ _ _ he)
    | discard =>
      exfalso
      have h2 : alook s.discard.toaster.items k = none := hnone
      rw [discard_toaster, he] at h2
      exact Option.noConfusion h2
    | dispose k0 imm =>
      exfalso
      have h3 := (alook_eq_none_iff _ _).mp hnone
      rw [dispose_keys] at h3
      exact h3 (mem_keys_of_alook _ _ _ he)
    | watcher k0 =>
      exact watcherFire_remove_char s.toaster k0 k e he hnone
  · intro t k k' imm
    rw [alook_eq_none_iff, alook_eq_none_iff, dispose_keys]
  · intro t k m hfresh
    unfold ToasterState.set
    rw [hfresh]
    refine ⟨alook_aset_self _ _ _, ?_⟩
    simp
  · intro t k e he
    have hone : alook (t.dispose k false).items k = some
        ⟨e.component, e.props,
          ⟨e.deferrals.disposeBegin.resolve (), e.deferrals.disposeFinish⟩⟩ := by
      unfold ToasterState.dispose
      simp only [if_neg Bool.false_ne_true]
      exact alook_eq_some_of_mem_amodify _ _ _ _ he
    refine ⟨hone, ?_⟩
    intro hfin
    unfold ToasterState.watcherFire
    refine if_neg ?_
    rintro ⟨-, hmatch⟩
    rw [hone] at hmatch
    simp [Entry.bothSettled, hfin] at hmatch
  · intro t k e hw he hboth
    have hcond : k ∈ t.watchers ∧ (match alook t.items k with
        | some e => e.bothSettled
        | none => false) = true := ⟨hw, by rw [he]; exact hboth⟩
    unfold ToasterState.watcherFire
    rw [if_pos hcond]
    exact ⟨alook_aerase_self _ _, rfl⟩

/-- Witness for C2 on a one-slot registry: after a fresh `set` and a
non-immediate `dispose`, the entry is still present; after `disposeFinish` is
settled too, the armed watcher removes it and bumps the update counter. -/
theorem entry_removed_only_after_both_settled_witness :
    alook ((ToasterState.init.set ⟨0, 1⟩ ⟨5, 6⟩).dispose ⟨0, 1⟩ false).items ⟨0, 1⟩ =
      some ⟨5, 6, ⟨⟨some (.resolvedWith ())⟩, defer⟩⟩ ∧
    (((ToasterState.init.set ⟨0, 1⟩ ⟨5, 6⟩).dispose ⟨0, 1⟩ false).watcherFire ⟨0, 1⟩ =
      (ToasterState.init.set ⟨0, 1⟩ ⟨5, 6⟩).dispose ⟨0, 1⟩ false) ∧
    alook (((ToasterState.init.set ⟨0, 1⟩ ⟨5, 6⟩).dispose ⟨0, 1⟩ true).watcherFire
      ⟨0, 1⟩).items ⟨0, 1⟩ = none := by
  have h := entry_removed_only_after_both_settled
  have h4 := h.2.2.2.1 (ToasterState.init.set ⟨0, 1⟩ ⟨5, 6⟩) ⟨0, 1⟩
    ⟨5, 6, ⟨defer, defer⟩⟩ (by decide)
  have h5 := h.2.2.2.2 ((ToasterState.init.set ⟨0, 1⟩ ⟨5, 6⟩).dispose ⟨0, 1⟩ true)
    ⟨0, 1⟩ ⟨5, 6, ⟨⟨some (.resolvedWith ())⟩, ⟨some (.resolvedWith ())⟩⟩⟩
    (by decide) (by decide) (by decide)
  exact ⟨h4.1.trans (by decide), h4.2 (by decide), h5.1⟩

/-! ## C8 — shallow merge on an existing key, one update event per call -/

/-- C8: `set(key, metadata)` on a key already present shallow-merges the
new metadata over the old entry (`{...item, ...metadata}`): `component` and
`props` become the new metadata's, while the entry's `deferrals` object is
exactly the one stored before the call; and every `set` call, on either
branch, bumps the `update` event count by exactly one, synchronously. -/
theorem set_shallow_merge_keeps_deferrals (t : ToasterState) (k : Key) (m : Metadata) :
    (∀ e, alook t.items k = some e →
      alook (t.set k m).items k = some ⟨m.component, m.props, e.deferrals⟩) ∧
    (t.set k m).updates = t.updates + 1 := by
  constructor
  · intro e he
    unfold ToasterState.set
    rw [he]
    exact alook_aset_self _ _ _
  · unfold ToasterState.set
    rcases hset : alook t.items k with _ | item <;> rfl

/-- Witness for C8: overwriting the one entry of a concrete registry keeps
its dispose deferrals and bumps the update count from 1 to 2. -/
theorem set_shallow_merge_keeps_deferrals_witness :
    alook ((ToasterState.init.set ⟨0, 1⟩ ⟨5, 6⟩).set ⟨0, 1⟩ ⟨7, 8⟩).items ⟨0, 1⟩ =
      some ⟨7, 8, ⟨defer, defer⟩⟩ ∧
    ((ToasterState.init.set ⟨0, 1⟩ ⟨5, 6⟩).set ⟨0, 1⟩ ⟨7, 8⟩).updates = 2 := by
  have h := set_shallow_merge_keeps_deferrals (ToasterState.init.set ⟨0, 1⟩ ⟨5, 6⟩)
    ⟨0, 1⟩ ⟨7, 8⟩
  exact ⟨h.1 ⟨5, 6, ⟨defer, defer⟩⟩ (by decide), h.2.trans (by decide)⟩

/-! ## C9 — `hasActive` -/

/-- C9: `hasActive(componentFilter?)` is `true` iff some registry entry —
restricted to entries whose component equals the filter when one is given —
has an unsettled `disposeBegin`; consequently, on a single-slot registry with
no filter, `hasActive()` is `true` immediately after `set` and `false`
immediately after `dispose` with `immediate` set. -/
theorem hasActive_iff_disposeBegin_unsettled (t : ToasterState) (filt : Option Nat) :
    (t.hasActive filt = true ↔
      ∃ k e, (k, e) ∈ t.items ∧ (∀ c, filt = some c → e.component = c) ∧
        e.deferrals.disposeBegin.settled = false) ∧
    (∀ (k : Key) (m : Metadata), (ToasterState.init.set k m).hasActive none = true) ∧
    (∀ (k : Key) (m : Metadata),
      ((ToasterState.init.set k m).dispose k true).hasActive none = false) := by
  refine ⟨⟨?_, ?_⟩, ?_, ?_⟩
  · intro h
    rcases List.any_eq_true.mp h with ⟨p, hp, hpred⟩
    obtain ⟨k, e⟩ := p
    rw [Bool.and_eq_true] at hpred
    refine ⟨k, e, hp, ?_, ?_⟩
    · intro c hc
      subst hc
      simpa using hpred.1
    · simpa using hpred.2
  · rintro ⟨k, e, hmem, hfilt, hbeg⟩
    refine List.any_eq_true.mpr ⟨(k, e), hmem, ?_⟩
    rw [Bool.and_eq_true]
    refine ⟨?_, by simp [hbeg]⟩
    rcases filt with _ | c
    · rfl
    · simpa using hfilt c rfl
  · intro k m
    simp [ToasterState.set, ToasterState.init, alook, aset, ToasterState.hasActive,
      Deferral.settled, defer]
  · intro k m
    simp [ToasterState.set, ToasterState.init, alook, aset, ToasterState.dispose,
      amodify, ToasterState.hasActive, Deferral.settled, defer, Deferral.resolve]

/-- Witness for C9 on a concrete one-slot registry. -/
theorem hasActive_iff_disposeBegin_unsettled_witness :
    (ToasterState.init.set ⟨0, 1⟩ ⟨5, 6⟩).hasActive none = true ∧
    ((ToasterState.init.set ⟨0, 1⟩ ⟨5, 6⟩).dispose ⟨0, 1⟩ true).hasActive none = false := by
  have h := hasActive_iff_disposeBegin_unsettled ToasterState.init none
  exact ⟨h.2.1 ⟨0, 1⟩ ⟨5, 6⟩, h.2.2 ⟨0, 1⟩ ⟨5, 6⟩⟩

/-! ## C10 — slot keys compare by object identity -/

/-- C10: The registry map is keyed by the `Key` object's identity, not by
its numeric `value`: for two distinct `Key` objects, even with equal `value`
fields, `set` on the second never merges with or overwrites the entry stored
under the first, and `dispose` on the second never touches (in particular
never resolves the dispose deferrals of) the entry stored under the first. -/
theorem keys_compare_by_object_identity (t : ToasterState) (k1 k2 : Key)
    (m : Metadata) (imm : Bool) (e1 : Entry)
    (hid : k1.id ≠ k2.id) (hval : k1.value = k2.value)
    (h1 : alook t.items k1 = some e1) :
    alook (t.set k2 m).items k1 = some e1 ∧
    alook (t.dispose k2 imm).items k1 = some e1 := by
  have hne : k2 ≠ k1 := fun h => hid (congrArg Key.id h).symm
  constructor
  · unfold ToasterState.set
    rcases hset : alook t.items k2 with _ | item <;>
      rw [alook_aset_ne _ _ _ _ hne] <;> exact h1
  · unfold ToasterState.dispose
    by_cases himm : imm
    · rw [if_pos himm]
      rw [alook_amodify_ne _ _ _ _ hne, alook_amodify_ne _ _ _ _ hne]
      exact h1
    · rw [if_neg himm]
      rw [alook_amodify_ne _ _ _ _ hne]
      exact h1

/-- Witness for C10: two keys with equal `value` but different identities; the
second key's `set` and `dispose` leave the first key's entry untouched. -/
theorem keys_compare_by_object_identity_witness :
    alook ((ToasterState.init.set ⟨0, 5⟩ ⟨1, 2⟩).set ⟨3, 5⟩ ⟨8, 9⟩).items ⟨0, 5⟩ =
      some ⟨1, 2, ⟨defer, defer⟩⟩ ∧
    alook ((ToasterState.init.set ⟨0, 5⟩ ⟨1, 2⟩).dispose ⟨3, 5⟩ true).items ⟨0, 5⟩ =
      some ⟨1, 2, ⟨defer, defer⟩⟩ := by
  have h := keys_compare_by_object_identity (ToasterState.init.set ⟨0, 5⟩ ⟨1, 2⟩)
    ⟨0, 5⟩ ⟨3, 5⟩ ⟨8, 9⟩ true ⟨1, 2, ⟨defer, defer⟩⟩ (by decide) (by decide) (by decide)
  exact h

/-! ## Characterizations of `resumePop` -/

/-- Resuming a pop whose awaited deferral was rejected with the Update
signal: the body absorbs the rejection and re-awaits the adapter's current
deferral; nothing else changes. -/
theorem resumePop_update (s : Sys) (i d : Nat)
    (hp : s.pops.get? i = some (.waitingOn d))
    (hd : alook s.heap d = some ⟨some (.rejectedWith .update)⟩) :
    s.resumePop i =
      { s with pops := s.pops.set i (.waitingOn (s.adapter.deferral.getD d)) } := by
  unfold Sys.resumePop
  rw [hp]
  dsimp only
  rw [hd]

/-- Resuming a pop whose awaited deferral settled with anything other than an
Update rejection: the invocation finishes with that outcome and the `finally`
block runs (`dispose(key)`, then the cached key is cleared). -/
theorem resumePop_finish (s : Sys) (i d : Nat) (o : Settlement Val)
    (hp : s.pops.get? i = some (.waitingOn d))
    (hd : alook s.heap d = some ⟨some o⟩)
    (ho : o ≠ .rejectedWith .update) :
    s.resumePop i =
      { s with
        pops := s.pops.set i (.finished o)
        toaster := match s.adapter.key with
          | some k => s.toaster.dispose k false
          | none => s.toaster
        adapter := { s.adapter with key := none } } := by
  unfold Sys.resumePop
  rw [hp]
  dsimp only
  rw [hd]
  rcases o with v | r
  · rfl
  · rcases r with _ | _ | _ | n
    · exact absurd rfl ho
    · rfl
    · rfl
    · rfl

theorem pops_set_get (l : List PopInv) (i : Nat) (x y : PopInv)
    (h : l.get? i = some x) : (l.set i y).get? i = some y := by
  rcases List.get?_eq_some.mp h with ⟨hlt, -⟩
  exact List.get?_set_eq_of_lt _ hlt

/-! ## C4 — the Update signal is absorbed by the retry loop -/

/-- C4: When the deferral a suspended `pop` body awaits has settled, the
resumption behaves as follows: a rejection with exactly the Update signal is
absorbed — the body loops and re-awaits the adapter's current deferral, with
no visible effect on the registry, the heap or the adapter — while a
rejection with any other reason is re-thrown verbatim to the caller and a
resolution value is returned to the caller (the invocation finishes with
exactly that outcome). -/
theorem update_rejection_absorbed (s : Sys) (i d : Nat) (df : Deferral Val)
    (hp : s.pops.get? i = some (.waitingOn d))
    (hdf : alook s.heap d = some df) :
    (df.status = some (.rejectedWith .update) →
      (∀ d', s.adapter.deferral = some d' →
        (s.resumePop i).pops.get? i = some (.waitingOn d')) ∧
      (s.resumePop i).heap = s.heap ∧
      (s.resumePop i).toaster = s.toaster ∧
      (s.resumePop i).adapter = s.adapter) ∧
    (∀ r, df.status = some (.rejectedWith r) → r ≠ .update →
      (s.resumePop i).pops.get? i = some (.finished (.rejectedWith r))) ∧
    (∀ v, df.status = some (.resolvedWith v) →
      (s.resumePop i).pops.get? i = some (.finished (.resolvedWith v))) := by
  obtain ⟨st⟩ := df
  refine ⟨?_, ?_, ?_⟩
  · intro hst
    simp only at hst
    subst hst
    rw [resumePop_update s i d hp hdf]
    refine ⟨?_, rfl, rfl, rfl⟩
    intro d' hd'
    have := pops_set_get s.pops i _ (.waitingOn (s.adapter.deferral.getD d)) hp
    rw [hd'] at this ⊢
    simpa using this
  · intro r hst hr
    simp only at hst
    subst hst
    rw [resumePop_finish s i d (.rejectedWith r) hp hdf (by simpa using hr)]
    exact pops_set_get s.pops i _ _ hp
  · intro v hst
    simp only at hst
    subst hst
    rw [resumePop_finish s i d (.resolvedWith v) hp hdf (by simp)]
    exact pops_set_get s.pops i _ _ hp

/-- Witness for C4: in a two-pop run, resuming the first invocation on its
Update-rejected deferral re-awaits the current deferral `1`; resuming on a
resolution returns the value, and on a host rejection re-throws it. -/
theorem update_rejection_absorbed_witness :
    ((((Sys.init 0).doPop 1).doPop 2).resumePop 0).pops.get? 0 =
      some (.waitingOn 1) ∧
    ((((Sys.init 0).doPop 1).settleDef 0 (.resolvedWith 9)).resumePop 0).pops.get? 0 =
      some (.finished (.resolvedWith 9)) ∧
    ((((Sys.init 0).doPop 1).settleDef 0 (.rejectedWith .host)).resumePop 0).pops.get? 0 =
      some (.finished (.rejectedWith .host)) := by
  have h1 := update_rejection_absorbed (((Sys.init 0).doPop 1).doPop 2) 0 0
    ⟨some (.rejectedWith .update)⟩ (by decide) (by decide)
  have h2 := update_rejection_absorbed (((Sys.init 0).doPop 1).settleDef 0
    (.resolvedWith 9)) 0 0 ⟨some (.resolvedWith 9)⟩ (by decide) (by decide)
  have h3 := update_rejection_absorbed (((Sys.init 0).doPop 1).settleDef 0
    (.rejectedWith .host)) 0 0 ⟨some (.rejectedWith .host)⟩ (by decide) (by decide)
  exact ⟨((h1.1 rfl).1 1 (by decide)), h2.2.2 9 rfl, h3.2.1 .host rfl (by decide)⟩

/-! ## C6 — `discard` and host cancellation -/

/-- C6: `discard()` rejects the currently outstanding deferral, if any,
with the host-cancellation error — a reason distinct from the Update signal
and recognized by the `isCancelledByHost` type-check predicate (which rejects
the Update signal) — so that resuming the corresponding suspended `pop` makes
its promise reject with that host-cancellation value; and `discard()` when no
deferral is outstanding (none stored, or the stored one already settled)
changes nothing at all. -/
theorem discard_rejects_host_cancellation (s : Sys) :
    (∀ d df, s.adapter.deferral = some d → alook s.heap d = some df →
      df.settled = false →
      alook s.discard.heap d = some ⟨some (.rejectedWith .host)⟩ ∧
      isCancelledByHost .host = true ∧
      isCancelledByHost .update = false ∧
      (∀ i, s.pops.get? i = some (.waitingOn d) →
        (s.discard.resumePop i).pops.get? i = some (.finished (.rejectedWith .host)))) ∧
    (s.adapter.deferral = none → s.discard = s) ∧
    (∀ d, s.adapter.deferral = some d →
      (∀ df, (d, df) ∈ s.heap → df.settled = true) → s.discard = s) := by
  refine ⟨?_, ?_, ?_⟩
  · intro d df hd hdf hunset
    have hheap : s.discard.heap = amodify s.heap d fun b => b.reject .host := by
      unfold Sys.discard
      rw [hd]
    have hrej : df.reject .host = ⟨some (.rejectedWith .host)⟩ := by
      unfold Deferral.reject
      rw [if_neg (by simp [hunset])]
    have halook : alook s.discard.heap d = some ⟨some (.rejectedWith .host)⟩ := by
      rw [hheap, alook_eq_some_of_mem_amodify _ _ _ _ hdf, hrej]
    refine ⟨halook, rfl, rfl, ?_⟩
    intro i hi
    have hpops : s.discard.pops = s.pops := by
      unfold Sys.discard
      rw [hd]
    rw [resumePop_finish s.discard i d (.rejectedWith .host)
      (by rw [hpops]; exact hi) halook (by simp)]
    exact pops_set_get _ _ _ _ (by rw [hpops]; exact hi)
  · intro hd
    unfold Sys.discard
    rw [hd]
  · intro d hd hall
    unfold Sys.discard
    rw [hd]
    dsimp only
    have hmod : (amodify s.heap d fun b => b.reject .host) = s.heap := by
      refine amodify_eq_self _ _ _ ?_
      intro b hb
      unfold Deferral.reject
      rw [if_pos (hall b hb)]
    rw [hmod]

/-- Witness for C6: after one `pop`, `discard` rejects deferral `0` with the
host cancellation, the predicate distinguishes it from the Update signal, the
resumed pop finishes host-rejected; and `discard` on the fresh adapter (no
deferral) and on an already-settled deferral changes nothing. -/
theorem discard_rejects_host_cancellation_witness :
    alook ((Sys.init 0).doPop 1).discard.heap 0 =
      some ⟨some (.rejectedWith .host)⟩ ∧
    isCancelledByHost .host = true ∧
    isCancelledByHost .update = false ∧
    (((Sys.init 0).doPop 1).discard.resumePop 0).pops.get? 0 =
      some (.finished (.rejectedWith .host)) ∧
    (Sys.init 0).discard = Sys.init 0 ∧
    (((Sys.init 0).doPop 1).settleDef 0 (.resolvedWith 5)).discard =
      ((Sys.init 0).doPop 1).settleDef 0 (.resolvedWith 5) := by
  have h1 := discard_rejects_host_cancellation ((Sys.init 0).doPop 1)
  have h2 := (h1.1 0 defer (by decide) (by decide) (by decide))
  have h3 := discard_rejects_host_cancellation (Sys.init 0)
  have h4 := discard_rejects_host_cancellation
    (((Sys.init 0).doPop 1).settleDef 0 (.resolvedWith 5))
  have hall : ∀ df : Deferral Val,
      (0, df) ∈ (((Sys.init 0).doPop 1).settleDef 0 (.resolvedWith 5)).heap →
      df.settled = true := by
    intro df hmem
    have hh : (((Sys.init 0).doPop 1).settleDef 0 (.resolvedWith 5)).heap =
        [(0, ⟨some (.resolvedWith 5)⟩)] := by decide
    rw [hh, List.mem_singleton] at hmem
    injection hmem with h1 h2
    rw [h2]
    rfl
  exact ⟨h2.1, h2.2.1, h2.2.2.1, h2.2.2.2 0 (by decide), h3.2.1 (by decide),
    h4.2.2 0 (by decide) hall⟩

/-! ## C3 — two consecutive `pop` calls, no intervening settlement

The claim says the first call's returned promise rejects with the Update
signal.  On the code this is false: the Update rejection hits the first
call's *deferral*, but the retry loop in the first `pop` body catches it and
re-awaits `deferral.promise`, which by then reads the adapter's current
(second) deferral — so the first call's returned promise settles with the
same eventual real settlement as the second call's. -/

/-- Counterexample to C3 as stated: run `pop(); pop()` with no intervening
settlement, resume the first body (it absorbs the Update rejection), resolve
the second deferral with `42`, and resume both bodies: the first `pop`'s
promise is *fulfilled with 42* — it does not reject with the Update
signal. -/
theorem first_pop_not_update_rejected_ctrex :
    (((((((Sys.init 7).doPop 1).doPop 2).resumePop 0).settleDef 1
        (.resolvedWith 42)).resumePop 0).resumePop 1).pops.get? 0 =
      some (.finished (.resolvedWith 42)) ∧
    ¬ (((((((Sys.init 7).doPop 1).doPop 2).resumePop 0).settleDef 1
        (.resolvedWith 42)).resumePop 0).resumePop 1).pops.get? 0 =
      some (.finished (.rejectedWith .update)) ∧
    (((((((Sys.init 7).doPop 1).doPop 2).resumePop 0).settleDef 1
        (.resolvedWith 42)).resumePop 0).resumePop 1).pops.get? 1 =
      some (.finished (.resolvedWith 42)) := by decide

/-- C3 amended: For two consecutive `pop` calls on the same adapter
with no intervening settlement, the first call's *Deferral* is rejected with
the Update signal, but the first call's returned promise absorbs that
rejection in the retry loop and re-awaits the second deferral: both the first
and the second `pop` call's promises settle with the eventual real settlement
of the toast (here, fulfillment with an arbitrary value `v`). -/
theorem both_pops_settle_with_real_outcome (c p1 p2 : Nat) (v : Val) :
    alook (((Sys.init c).doPop p1).doPop p2).heap 0 =
      some ⟨some (.rejectedWith .update)⟩ ∧
    (((((((Sys.init c).doPop p1).doPop p2).resumePop 0).settleDef 1
        (.resolvedWith v)).resumePop 0).resumePop 1).pops.get? 0 =
      some (.finished (.resolvedWith v)) ∧
    (((((((Sys.init c).doPop p1).doPop p2).resumePop 0).settleDef 1
        (.resolvedWith v)).resumePop 0).resumePop 1).pops.get? 1 =
      some (.finished (.resolvedWith v)) := ⟨rfl, rfl, rfl⟩

/-! ## C7 — `pop` after a settled `pop`

The claim's "unless disposal of the previous slot has not yet completed, in
which case the existing key is reused" branch is unreachable on the code: the
`finally` block clears the cached key before the `pop` promise settles, so a
later `pop` always allocates a fresh key — even while the previous slot is
still draining disposal, in which case the old entry stays in the registry
under its old key next to the new entry instead of being overwritten. -/

/-- Counterexample to C7 as stated: `pop()`, resolve it, resume it (its
promise is settled; `dispose` has only begun, `disposeFinish` is unsettled so
disposal of slot `⟨0,1⟩` has not completed), then `pop()` again: a *fresh*
key `⟨1,2⟩` is allocated rather than `⟨0,1⟩` being reused, and the registry
now holds two entries — the old entry (props `5`) was not overwritten in
place. -/
theorem pop_after_settlement_reuses_key_ctrex :
    ((((Sys.init 7).doPop 5).settleDef 0 (.resolvedWith 42)).resumePop 0).pops.get? 0 =
      some (.finished (.resolvedWith 42)) ∧
    (((((Sys.init 7).doPop 5).settleDef 0 (.resolvedWith 42)).resumePop 0).adapter.key =
      none) ∧
    ((alook ((((Sys.init 7).doPop 5).settleDef 0
        (.resolvedWith 42)).resumePop 0).toaster.items ⟨0, 1⟩).map
      fun e => e.deferrals.disposeFinish.settled) = some false ∧
    (((((Sys.init 7).doPop 5).settleDef 0
        (.resolvedWith 42)).resumePop 0).doPop 6).adapter.key = some ⟨1, 2⟩ ∧
    ((⟨1, 2⟩ : Key) = (⟨0, 1⟩ : Key) → False) ∧
    (((((Sys.init 7).doPop 5).settleDef 0
        (.resolvedWith 42)).resumePop 0).doPop 6).toaster.items.length = 2 ∧
    ((alook (((((Sys.init 7).doPop 5).settleDef 0
        (.resolvedWith 42)).resumePop 0).doPop 6).toaster.items ⟨0, 1⟩).map
      fun e => e.props) = some 5 := by decide

/-- C7 amended: Finishing a `pop` (any settlement other than the
absorbed Update signal) clears the adapter's cached key, so a `pop` called
after a prior `pop`'s promise has settled always allocates a freshly minted
slot key — a key distinct from every key in the registry, including the
previous slot's if its disposal has not yet completed, in which case the old
entry remains under its old key, untouched, next to the newly inserted entry
(no in-place overwrite).  The cached key is reused only by a `pop` made while
the adapter still holds a key, i.e. while a prior `pop` is still pending. -/
theorem pop_after_settlement_allocates_fresh_key (s : Sys) (hreach : Reachable s) :
    (∀ i d o, s.pops.get? i = some (.waitingOn d) →
      alook s.heap d = some ⟨some o⟩ → o ≠ .rejectedWith .update →
      (s.resumePop i).adapter.key = none) ∧
    (∀ props, s.adapter.key = none →
      (s.doPop props).adapter.key = some ⟨s.nextKeyId, s.lastToastableKey + 1⟩ ∧
      alook s.toaster.items ⟨s.nextKeyId, s.lastToastableKey + 1⟩ = none ∧
      alook (s.doPop props).toaster.items ⟨s.nextKeyId, s.lastToastableKey + 1⟩ =
        some ⟨s.component, props, ⟨defer, defer⟩⟩ ∧
      (∀ k e, alook s.toaster.items k = some e →
        k ≠ (⟨s.nextKeyId, s.lastToastableKey + 1⟩ : Key) ∧
        alook (s.doPop props).toaster.items k = some e)) ∧
    (∀ props k0, s.adapter.key = some k0 → (s.doPop props).adapter.key = some k0) := by
  have hs := reachable_inv hreach
  refine ⟨?_, ?_, ?_⟩
  · intro i d o hp hd ho
    rw [resumePop_finish s i d o hp hd ho]
  · intro props hkey
    obtain ⟨hka, htoast, -, -⟩ := doPop_key_none s props hkey
    have hfreshid : ∀ k : Key, k ∈ s.toaster.items.map Prod.fst →
        k ≠ (⟨s.nextKeyId, s.lastToastableKey + 1⟩ : Key) := by
      intro k hk hcontra
      have := hs.itemKeys k hk
      rw [hcontra] at this
      exact absurd this (lt_irrefl _)
    have hfresh : alook s.toaster.items ⟨s.nextKeyId, s.lastToastableKey + 1⟩ = none := by
      refine (alook_eq_none_iff _ _).mpr fun hmem => ?_
      exact hfreshid _ hmem rfl
    refine ⟨hka, hfresh, ?_, ?_⟩
    · rw [htoast]
      unfold ToasterState.set
      rw [hfresh]
      exact alook_aset_self _ _ _
    · intro k e he
      have hkne := hfreshid k (mem_keys_of_alook _ _ _ he)
      refine ⟨hkne, ?_⟩
      rw [htoast]
      unfold ToasterState.set
      rw [hfresh, alook_aset_ne _ _ _ _ (Ne.symm hkne)]
      exact he
  · intro props k0 hk0
    exact (doPop_key_some s props k0 hk0).1

/-- Witness for C7 (amended): on the concrete settled-pop trace, resuming
clears the key, the follow-up `pop` mints the fresh key `⟨1,2⟩`, the old
entry under `⟨0,1⟩` survives unchanged, and a `pop` during a pending `pop`
reuses the key. -/
theorem pop_after_settlement_allocates_fresh_key_witness :
    ((((Sys.init 7).doPop 5).settleDef 0 (.resolvedWith 42)).resumePop 0).adapter.key =
      none ∧
    (((((Sys.init 7).doPop 5).settleDef 0
        (.resolvedWith 42)).resumePop 0).doPop 6).adapter.key = some ⟨1, 2⟩ ∧
    alook (((((Sys.init 7).doPop 5).settleDef 0
        (.resolvedWith 42)).resumePop 0).doPop 6).toaster.items ⟨0, 1⟩ =
      some ⟨7, 5, ⟨⟨some (.resolvedWith ())⟩, defer⟩⟩ ∧
    (((Sys.init 7).doPop 5).doPop 6).adapter.key = some ⟨0, 1⟩ := by
  have hr1 : Reachable ((Sys.init 7).doPop 5) :=
    Reachable.step (Reachable.init 7) (Step.pop _ 5)
  have hr2 : Reachable (((Sys.init 7).doPop 5).settleDef 0 (.resolvedWith 42)) :=
    Reachable.step hr1 (Step.settle _ 0 _)
  have hr3 : Reachable ((((Sys.init 7).doPop 5).settleDef 0
      (.resolvedWith 42)).resumePop 0) :=
    Reachable.step hr2 (Step.resume _ 0)
  have h2 := pop_after_settlement_allocates_fresh_key
    (((Sys.init 7).doPop 5).settleDef 0 (.resolvedWith 42)) hr2
  have h3 := pop_after_settlement_allocates_fresh_key
    ((((Sys.init 7).doPop 5).settleDef 0 (.resolvedWith 42)).resumePop 0) hr3
  have h1 := pop_after_settlement_allocates_fresh_key ((Sys.init 7).doPop 5) hr1
  refine ⟨h2.1 0 0 (.resolvedWith 42) (by decide) (by decide) (by decide), ?_, ?_, ?_⟩
  · exact (h3.2.1 6 (by decide)).1.trans (by decide)
  · exact ((h3.2.1 6 (by decide)).2.2.2 ⟨0, 1⟩
      ⟨7, 5, ⟨⟨some (.resolvedWith ())⟩, defer⟩⟩ (by decide)).2
  · exact h1.2.2 6 ⟨0, 1⟩ (by decide)

end Toasterhea
